import Mathlib

/-!
Shallow embedding of `src/updater.py`, a release-time script that rewrites
`@version` tags across a directory tree.

The script (in order):
* exits with a usage message and status 1 unless `len(sys.argv) == 2`;
* walks `Path(".").rglob("*")`, keeping entries whose `suffix` is in
  `[".js", ".ts", ".py", ".sh", ".cpp", ".java", ".css"]`;
* reads each kept entry as UTF-8 text; any exception prints a
  `Skipped (read error): <path>` line and moves on;
* applies `re.compile(r'(\*+\s*@version\s+)([\w\.\-]+)').subn(replacer, text)`
  where `replacer` returns `group(1) + new_version`;
* if the match count is positive, writes the new text back and prints
  `Updated: <path>`.

Modelling choices:
* Text is `List Char`.  The character classes `\s` and `\w` are modelled on
  their ASCII fragment (`[ \t\n\v\f\r]` and `[A-Za-z0-9_]`); every concrete
  input in this development is ASCII, where the model agrees with Python.
* The regex engine is modelled by a deterministic maximal-munch matcher
  `matchAt`.  For this particular pattern maximal munch coincides with
  Python's backtracking semantics because adjacent pieces of the pattern
  have disjoint character classes (`*` is neither whitespace nor a token
  character, `@` is neither, and whitespace and `[\w.-]` are disjoint), so
  giving characters back can never enable the next piece to match.
  `re.subn`'s global scan (try each position left to right, restart after
  the end of each match) is modelled by `tokenizeF`/`subnF`.
* The filesystem is a list of entries (path plus payload).  A payload is a
  directory, an unreadable file (any `read_text` exception: bad encoding,
  permissions, ...), or a UTF-8 text file with a writability flag.
  `read_text` on a directory raises `IsADirectoryError`, which the
  script's `except Exception` also catches.
* An attempt to write an unwritable file raises an uncaught exception:
  the Python process stops there and exits with status 1 (the open fails
  before any bytes are written, so the file keeps its old content).
-/

namespace Updater

/-- ASCII fragment of the regex class `\s`. -/
def isPySpace (c : Char) : Bool :=
  c = ' ' || c = '\t' || c = '\n' || c = '\x0b' || c = '\x0c' || c = '\r'

/-- The character `*`, as matched by `\*`. -/
def isStar (c : Char) : Bool := c = '*'

/-- ASCII fragment of the regex class `\w`. -/
def isWordChar (c : Char) : Bool := c.isAlphanum || c = '_'

/-- The regex class `[\w\.\-]` (a version-token character). -/
def isTokenChar (c : Char) : Bool := isWordChar c || c = '.' || c = '-'

/-- The literal `@version` in the middle of the pattern. -/
def atVersion : List Char := "@version".toList

/-- Matcher for the part `\s*@version\s+[\w\.\-]+` of the pattern (everything
after the leading `\*+`).  On success, returns the matched piece of group 1
(`\s*@version\s+`), group 2 (the version token), and the rest of the input. -/
def matchTail (s : List Char) : Option (List Char × List Char × List Char) :=
  let ws1 := s.takeWhile isPySpace
  let r2 := s.dropWhile isPySpace
  if atVersion.isPrefixOf r2 then
    let r3 := r2.drop atVersion.length
    let ws2 := r3.takeWhile isPySpace
    let r4 := r3.dropWhile isPySpace
    let tok := r4.takeWhile isTokenChar
    let r5 := r4.dropWhile isTokenChar
    if ws2.isEmpty then none
    else if tok.isEmpty then none
    else some (ws1 ++ atVersion ++ ws2, tok, r5)
  else none

/-- Matcher for `(\*+\s*@version\s+)([\w\.\-]+)` anchored at the start of `s`.
On success, returns (group 1, group 2, rest of the input). -/
def matchAt (s : List Char) : Option (List Char × List Char × List Char) :=
  let stars := s.takeWhile isStar
  if stars.isEmpty then none
  else
    match matchTail (s.dropWhile isStar) with
    | some (g1t, tok, rest) => some (stars ++ g1t, tok, rest)
    | none => none

/-- One segment of the global scan: either a character the pattern does not
match at, or one non-overlapping match (group 1, group 2). -/
inductive Seg where
  | lit : Char → Seg
  | tag : List Char → List Char → Seg
deriving DecidableEq

/-- Fuelled global scan of the regex over the text, yielding the segment
list: the scanner tries the pattern at each position left to right and
resumes after the end of each match, exactly as `re.subn` does.  The fuel
only serves to make the recursion structural; `tokenize` supplies enough. -/
def tokenizeF : Nat → List Char → List Seg
  | _, [] => []
  | 0, _ :: _ => []
  | f + 1, c :: cs =>
    match matchAt (c :: cs) with
    | some (g1, tok, rest) => Seg.tag g1 tok :: tokenizeF f rest
    | none => Seg.lit c :: tokenizeF f cs

/-- The list of scan segments of a text. -/
def tokenize (s : List Char) : List Seg := tokenizeF s.length s

/-- Replacement of one segment, as performed by `replacer`: a match turns
into its own group 1 followed by the new version; group 2 is dropped. -/
def renderSeg (nv : List Char) : Seg → List Char
  | Seg.lit c => [c]
  | Seg.tag g1 _ => g1 ++ nv

/-- Glue the replaced segments back together. -/
def render (nv : List Char) (segs : List Seg) : List Char :=
  (segs.map (renderSeg nv)).flatten

/-- Number of matches in a segment list. -/
def countTags : List Seg → Nat
  | [] => 0
  | Seg.lit _ :: t => countTags t
  | Seg.tag _ _ :: t => countTags t + 1

/-- Fuelled form of `version_pattern.subn(replacer, text)`: replace every
non-overlapping match by `group(1) + new_version` in one left-to-right
pass and count the matches. -/
def subnF (nv : List Char) : Nat → List Char → List Char × Nat
  | _, [] => ([], 0)
  | 0, _ :: _ => ([], 0)
  | f + 1, c :: cs =>
    match matchAt (c :: cs) with
    | some (g1, _tok, rest) =>
      let p := subnF nv f rest
      (g1 ++ nv ++ p.1, p.2 + 1)
    | none =>
      let p := subnF nv f cs
      (c :: p.1, p.2)

/-- The embedding of `version_pattern.subn(replacer, text)`: the rewritten
text and the number of replacements. -/
def subn (nv text : List Char) : List Char × Nat := subnF nv text.length text

/-- Replacing each match's group 2 by `nv` at the segment level. -/
def retag (nv : List Char) : List Seg → List Seg
  | [] => []
  | Seg.lit c :: t => Seg.lit c :: retag nv t
  | Seg.tag g1 _ :: t => Seg.tag g1 nv :: retag nv t

/-- Payload of a filesystem entry seen by the walk. -/
inductive FileData where
  | dir : FileData
  | unreadable (writable : Bool) : FileData
  | text (writable : Bool) (content : List Char) : FileData
deriving DecidableEq

/-- A filesystem entry: the path that `rglob` yields plus its payload. -/
structure Entry where
  path : List Char
  data : FileData
deriving DecidableEq

/-- The final path component, as in `PurePath.name`. -/
def nameOf (path : List Char) : List Char :=
  (path.reverse.takeWhile (fun c => c ≠ '/')).reverse

/-- The extension of the final component, as in `PurePath.suffix`: the part
of the name from its last dot on, provided that dot is neither the first
nor the last character of the name; otherwise the empty string. -/
def suffixOf (path : List Char) : List Char :=
  let name := nameOf path
  let pre := name.reverse.takeWhile (fun c => c ≠ '.')
  if pre.length + 1 < name.length ∧ 0 < pre.length then '.' :: pre.reverse
  else []

/-- The allow-list `file_exts` from the script. -/
def file_exts : List (List Char) :=
  [".js".toList, ".ts".toList, ".py".toList, ".sh".toList,
   ".cpp".toList, ".java".toList, ".css".toList]

/-- The line `print(f"Skipped (read error): {file_path}")` produces. -/
def skipMsg (p : List Char) : List Char := "Skipped (read error): ".toList ++ p

/-- The line `print(f"Updated: {file_path}")` produces. -/
def updatedMsg (p : List Char) : List Char := "Updated: ".toList ++ p

/-- The usage line printed on an arity violation. -/
def usageMsg : List Char := "Usage: python update_version.py NEW_VERSION".toList

/-- Result of the loop body on one entry: the entry as left on disk, the
stdout lines it printed, whether `read_text` was called, and whether
`write_text` was called. -/
structure ProcResult where
  entry : Entry
  out : List (List Char)
  didRead : Bool
  didWrite : Bool
deriving DecidableEq

/-- The loop body of the script on one walked entry.  `none` means the body
raised an uncaught exception (a failed `write_text`), which aborts the whole
process. -/
def processEntry (nv : List Char) (e : Entry) : Option ProcResult :=
  if suffixOf e.path ∈ file_exts then
    match e.data with
    | FileData.dir => some ⟨e, [skipMsg e.path], true, false⟩
    | FileData.unreadable _ => some ⟨e, [skipMsg e.path], true, false⟩
    | FileData.text w t =>
      let r := subn nv t
      if 0 < r.2 then
        if w then
          some ⟨⟨e.path, FileData.text w r.1⟩, [updatedMsg e.path], true, true⟩
        else none
      else some ⟨e, [], true, false⟩
  else some ⟨e, [], false, false⟩

/-- The walk over all entries: final filesystem, stdout lines, exit code.
An uncaught write exception stops the loop at the offending entry (which
keeps its old content) and the process exits with status 1; otherwise the
script falls off the end and exits with status 0. -/
def runFiles (nv : List Char) : List Entry → List Entry × List (List Char) × Nat
  | [] => ([], [], 0)
  | e :: es =>
    match processEntry nv e with
    | none => (e :: es, [], 1)
    | some r =>
      let rest := runFiles nv es
      (r.entry :: rest.1, r.out ++ rest.2.1, rest.2.2)

/-- The whole script: `argv` is `sys.argv` (program name included), `fs` the
walked directory tree.  Returns the tree as left on disk, the stdout lines,
and the process exit code. -/
def updater (argv : List (List Char)) (fs : List Entry) :
    List Entry × List (List Char) × Nat :=
  match argv with
  | [_, v] => runFiles v fs
  | _ => (fs, [usageMsg], 1)

end Updater

namespace Updater

/-! ### List toolkit -/

theorem tw_pos {p : Char → Bool} {c : Char} (l : List Char) (h : p c = true) :
    (c :: l).takeWhile p = c :: l.takeWhile p := by
  simp [List.takeWhile_cons, h]

theorem tw_neg {p : Char → Bool} {c : Char} (l : List Char) (h : p c = false) :
    (c :: l).takeWhile p = [] := by
  simp [List.takeWhile_cons, h]

theorem dw_pos {p : Char → Bool} {c : Char} (l : List Char) (h : p c = true) :
    (c :: l).dropWhile p = l.dropWhile p := by
  simp [List.dropWhile_cons, h]

theorem dw_neg {p : Char → Bool} {c : Char} (l : List Char) (h : p c = false) :
    (c :: l).dropWhile p = c :: l := by
  simp [List.dropWhile_cons, h]

theorem tw_append_all {p : Char → Bool} :
    ∀ (xs ys : List Char), (∀ a ∈ xs, p a = true) →
      (xs ++ ys).takeWhile p = xs ++ ys.takeWhile p
  | [], ys, _ => rfl
  | x :: xs, ys, h => by
    rw [List.cons_append, tw_pos _ (h x (by simp)),
      tw_append_all xs ys (fun a ha => h a (by simp [ha])), List.cons_append]

theorem dw_append_all {p : Char → Bool} :
    ∀ (xs ys : List Char), (∀ a ∈ xs, p a = true) →
      (xs ++ ys).dropWhile p = ys.dropWhile p
  | [], ys, _ => rfl
  | x :: xs, ys, h => by
    rw [List.cons_append, dw_pos _ (h x (by simp)),
      dw_append_all xs ys (fun a ha => h a (by simp [ha]))]

theorem tw_all {p : Char → Bool} {l : List Char} (h : ∀ a ∈ l, p a = true) :
    l.takeWhile p = l := by
  have := tw_append_all l [] h
  simpa using this

theorem dw_all {p : Char → Bool} {l : List Char} (h : ∀ a ∈ l, p a = true) :
    l.dropWhile p = [] := by
  have := dw_append_all l [] h
  simpa using this

theorem dw_head_false {p : Char → Bool} :
    ∀ {l : List Char} {c : Char} {t : List Char},
      l.dropWhile p = c :: t → p c = false
  | [], c, t, h => by simp at h
  | d :: l, c, t, h => by
    by_cases hd : p d = true
    · rw [dw_pos _ hd] at h
      exact dw_head_false h
    · rw [dw_neg _ (by simpa using hd)] at h
      cases h
      simpa using hd

theorem isEmpty_false {l : List Char} (h : l.isEmpty = false) : l ≠ [] := by
  cases l <;> simp_all

theorem isEmpty_false_of_cons {c : Char} {l : List Char} :
    (c :: l).isEmpty = false := rfl

/-! ### `isPrefixOf` toolkit -/

theorem isPrefixOf_cons_cons {a b : Char} {as bs : List Char} :
    (a :: as).isPrefixOf (b :: bs) = (a == b && as.isPrefixOf bs) := rfl

theorem isPrefixOf_append_self : ∀ (u v : List Char), u.isPrefixOf (u ++ v) = true
  | [], _ => by simp [List.isPrefixOf]
  | a :: u, v => by
    rw [List.cons_append, isPrefixOf_cons_cons, isPrefixOf_append_self u v]
    simp

theorem eq_append_drop_of_isPrefixOf :
    ∀ (u v : List Char), u.isPrefixOf v = true → v = u ++ v.drop u.length
  | [], v, _ => by simp
  | a :: u, [], h => by simp [List.isPrefixOf] at h
  | a :: u, b :: v, h => by
    rw [isPrefixOf_cons_cons] at h
    rcases Bool.and_eq_true_iff.mp h with ⟨h1, h2⟩
    have hab : a = b := by simpa using h1
    subst hab
    simpa using eq_append_drop_of_isPrefixOf u v h2

/-! ### Character-class facts -/

theorem sp_cases {c : Char} (h : isPySpace c = true) :
    c = ' ' ∨ c = '\t' ∨ c = '\n' ∨ c = '\x0b' ∨ c = '\x0c' ∨ c = '\r' := by
  have := h
  simp only [isPySpace, Bool.or_eq_true, decide_eq_true_eq] at this
  tauto

theorem sp_not_star {c : Char} (h : isPySpace c = true) : isStar c = false := by
  rcases sp_cases h with h | h | h | h | h | h <;> subst h <;> decide

theorem sp_not_token {c : Char} (h : isPySpace c = true) : isTokenChar c = false := by
  rcases sp_cases h with h | h | h | h | h | h <;> subst h <;> decide

theorem token_not_sp {c : Char} (h : isTokenChar c = true) : isPySpace c = false := by
  by_contra hb
  have hs : isPySpace c = true := by simpa using hb
  rw [sp_not_token hs] at h
  exact Bool.false_ne_true h

theorem star_eq {c : Char} (h : isStar c = true) : c = '*' := by
  simpa [isStar] using h

theorem token_not_star {c : Char} (h : isTokenChar c = true) : isStar c = false := by
  by_contra hb
  have hs : isStar c = true := by simpa using hb
  rw [star_eq hs] at h
  exact absurd h (by decide)

theorem atVersion_no_star : ∀ c ∈ atVersion, isStar c = false := by decide

theorem atVersion_eq : atVersion = '@' :: "version".toList := by decide

end Updater

namespace Updater

/-! ### Decomposition of a successful match -/

theorem matchTail_decomp {s g1t tok rest : List Char}
    (h : matchTail s = some (g1t, tok, rest)) :
    ∃ ws1 ws2,
      g1t = ws1 ++ atVersion ++ ws2 ∧
      s = ws1 ++ atVersion ++ ws2 ++ tok ++ rest ∧
      (∀ c ∈ ws1, isPySpace c = true) ∧
      ws2 ≠ [] ∧ (∀ c ∈ ws2, isPySpace c = true) ∧
      tok ≠ [] ∧ (∀ c ∈ tok, isTokenChar c = true) ∧
      (∀ c t, rest = c :: t → isTokenChar c = false) := by
  simp only [matchTail] at h
  split at h
  case isFalse => exact absurd h (by simp)
  case isTrue hp =>
    split at h
    case isTrue => exact absurd h (by simp)
    case isFalse hw2e =>
      split at h
      case isTrue => exact absurd h (by simp)
      case isFalse htoke =>
        rw [Option.some_inj] at h
        injection h with hg h'
        injection h' with htok hrest
        refine ⟨s.takeWhile isPySpace,
          ((s.dropWhile isPySpace).drop atVersion.length).takeWhile isPySpace,
          hg.symm, ?_, ?_, ?_, ?_, ?_, ?_, ?_⟩
        · have e1 : s = s.takeWhile isPySpace ++ s.dropWhile isPySpace :=
            (List.takeWhile_append_dropWhile isPySpace s).symm
          have e2 : s.dropWhile isPySpace =
              atVersion ++ (s.dropWhile isPySpace).drop atVersion.length :=
            eq_append_drop_of_isPrefixOf _ _ hp
          have e3 : (s.dropWhile isPySpace).drop atVersion.length =
              ((s.dropWhile isPySpace).drop atVersion.length).takeWhile isPySpace ++
              ((s.dropWhile isPySpace).drop atVersion.length).dropWhile isPySpace :=
            (List.takeWhile_append_dropWhile isPySpace _).symm
          have e4 : ((s.dropWhile isPySpace).drop atVersion.length).dropWhile isPySpace =
              tok ++ rest := by
            rw [← htok, ← hrest]
            exact (List.takeWhile_append_dropWhile isTokenChar _).symm
          conv_lhs => rw [e1, e2]
          conv_lhs => rw [e3, e4]
          simp [List.append_assoc]
        · exact fun c hc => List.mem_takeWhile_imp hc
        · exact isEmpty_false (by simpa using hw2e)
        · exact fun c hc => List.mem_takeWhile_imp hc
        · rw [← htok]
          exact isEmpty_false (by simpa using htoke)
        · rw [← htok]
          exact fun c hc => List.mem_takeWhile_imp hc
        · intro c t hct
          rw [← hrest] at hct
          exact dw_head_false hct

theorem matchAt_decomp {s g1 tok rest : List Char}
    (h : matchAt s = some (g1, tok, rest)) :
    ∃ stars ws1 ws2,
      g1 = stars ++ ws1 ++ atVersion ++ ws2 ∧
      s = g1 ++ tok ++ rest ∧
      stars ≠ [] ∧ (∀ c ∈ stars, isStar c = true) ∧
      (∀ c ∈ ws1, isPySpace c = true) ∧
      ws2 ≠ [] ∧ (∀ c ∈ ws2, isPySpace c = true) ∧
      tok ≠ [] ∧ (∀ c ∈ tok, isTokenChar c = true) ∧
      (∀ c t, rest = c :: t → isTokenChar c = false) := by
  simp only [matchAt] at h
  split at h
  case isTrue => exact absurd h (by simp)
  case isFalse hse =>
    cases hmt : matchTail (s.dropWhile isStar) with
    | none => rw [hmt] at h; exact absurd h (by simp)
    | some val =>
      obtain ⟨g1t, tok', rest'⟩ := val
      rw [hmt] at h
      simp only [Option.some_inj, Prod.mk.injEq] at h
      obtain ⟨hg, htok, hrest⟩ := h
      subst htok hrest
      obtain ⟨ws1, ws2, hgt, hsd, hw1, hw2n, hw2, htn, ht, hr⟩ :=
        matchTail_decomp hmt
      refine ⟨s.takeWhile isStar, ws1, ws2, ?_, ?_, ?_, ?_, hw1, hw2n, hw2, htn, ht, hr⟩
      · rw [← hg, hgt]
        simp [List.append_assoc]
      · have e1 : s = s.takeWhile isStar ++ s.dropWhile isStar :=
          (List.takeWhile_append_dropWhile isStar s).symm
        conv_lhs => rw [e1, hsd]
        rw [← hg, hgt]
        simp [List.append_assoc]
      · exact isEmpty_false (by simpa using hse)
      · exact fun c hc => List.mem_takeWhile_imp hc

theorem matchAt_rest_lt {s g1 tok rest : List Char}
    (h : matchAt s = some (g1, tok, rest)) : rest.length < s.length := by
  obtain ⟨stars, ws1, ws2, hg, hs, hsn, _⟩ := matchAt_decomp h
  have h1 : 0 < stars.length := List.length_pos.mpr hsn
  have h2 : 0 < g1.length := by
    rw [hg]
    simp only [List.length_append]
    omega
  rw [hs]
  simp only [List.length_append]
  omega

theorem matchAt_cons_star {s g1 tok rest : List Char}
    (h : matchAt s = some (g1, tok, rest)) : ∃ t, s = '*' :: t := by
  obtain ⟨stars, ws1, ws2, hg, hs, hsn, hstar, _⟩ := matchAt_decomp h
  cases hst : stars with
  | nil => exact absurd hst hsn
  | cons c stars' =>
    have hc : c = '*' := star_eq (hstar c (by rw [hst]; simp))
    refine ⟨stars' ++ ws1 ++ atVersion ++ ws2 ++ tok ++ rest, ?_⟩
    rw [hs, hg, hst, hc]
    simp [List.append_assoc]

end Updater

namespace Updater

/-! ### Scanner-splitting toolkit -/

theorem tw_headNot {p : Char → Bool} {l : List Char}
    (h : ∀ c t, l = c :: t → p c = false) : l.takeWhile p = [] := by
  cases l with
  | nil => rfl
  | cons c t => exact tw_neg _ (h c t rfl)

theorem dw_headNot {p : Char → Bool} {l : List Char}
    (h : ∀ c t, l = c :: t → p c = false) : l.dropWhile p = l := by
  cases l with
  | nil => rfl
  | cons c t => exact dw_neg _ (h c t rfl)

/-- A greedy scan over `zs = xs ++ ys` with every character of `xs` in the
class and the head of `ys` (if any) outside it stops exactly at the border. -/
theorem scan_split (p : Char → Bool) (xs ys zs : List Char)
    (hz : zs = xs ++ ys) (hall : ∀ a ∈ xs, p a = true)
    (hhd : ∀ c t, ys = c :: t → p c = false) :
    zs.takeWhile p = xs ∧ zs.dropWhile p = ys := by
  subst hz
  constructor
  · rw [tw_append_all _ _ hall, tw_headNot hhd]
    simp
  · rw [dw_append_all _ _ hall, dw_headNot hhd]

theorem headNot_append_cons {p : Char → Bool} {a : Char} {u v : List Char}
    (ha : p a = false) : ∀ c t, (a :: u) ++ v = c :: t → p c = false := by
  intro c t h
  rw [List.cons_append] at h
  injection h with h1 _
  exact h1 ▸ ha

theorem headNot_of_nonempty_all {p q : Char → Bool} {u v : List Char}
    (hu : u ≠ []) (hall : ∀ c ∈ u, q c = true)
    (himp : ∀ c, q c = true → p c = false) :
    ∀ c t, u ++ v = c :: t → p c = false := by
  cases u with
  | nil => exact absurd rfl hu
  | cons a u' =>
    exact headNot_append_cons (himp a (hall a (by simp)))

/-! ### Reconstruction of a match from well-formed pieces -/

theorem matchTail_build {ws1 ws2 tok rest : List Char}
    (hw1 : ∀ c ∈ ws1, isPySpace c = true)
    (hw2n : ws2 ≠ []) (hw2 : ∀ c ∈ ws2, isPySpace c = true)
    (htn : tok ≠ []) (ht : ∀ c ∈ tok, isTokenChar c = true)
    (hr : ∀ c t, rest = c :: t → isTokenChar c = false) :
    matchTail (ws1 ++ atVersion ++ ws2 ++ tok ++ rest)
      = some (ws1 ++ atVersion ++ ws2, tok, rest) := by
  have hAv : ∀ c t, atVersion ++ (ws2 ++ (tok ++ rest)) = c :: t → isPySpace c = false := by
    rw [atVersion_eq]
    exact headNot_append_cons (by decide)
  obtain ⟨e1, e2⟩ := scan_split isPySpace
    ws1 (atVersion ++ (ws2 ++ (tok ++ rest)))
    (ws1 ++ atVersion ++ ws2 ++ tok ++ rest)
    (by simp [List.append_assoc]) hw1 hAv
  have hP : atVersion.isPrefixOf (atVersion ++ (ws2 ++ (tok ++ rest))) = true :=
    isPrefixOf_append_self _ _
  have hD : (atVersion ++ (ws2 ++ (tok ++ rest))).drop atVersion.length
      = ws2 ++ (tok ++ rest) := by
    simp
  obtain ⟨e3, e4⟩ := scan_split isPySpace
    ws2 (tok ++ rest) (ws2 ++ (tok ++ rest)) rfl hw2
    (headNot_of_nonempty_all htn ht (fun c hc => token_not_sp hc))
  obtain ⟨e5, e6⟩ := scan_split isTokenChar
    tok rest (tok ++ rest) rfl ht hr
  have hw2e : ws2.isEmpty = false := by
    cases ws2 with
    | nil => exact absurd rfl hw2n
    | cons a l => rfl
  have htoke : tok.isEmpty = false := by
    cases tok with
    | nil => exact absurd rfl htn
    | cons a l => rfl
  simp only [matchTail, e1, e2, hP, if_true, hD, e3, e4, e5, e6, hw2e, htoke,
    Bool.false_eq_true, if_false]

theorem matchAt_build {stars ws1 ws2 tok rest : List Char}
    (hsn : stars ≠ []) (hst : ∀ c ∈ stars, isStar c = true)
    (hw1 : ∀ c ∈ ws1, isPySpace c = true)
    (hw2n : ws2 ≠ []) (hw2 : ∀ c ∈ ws2, isPySpace c = true)
    (htn : tok ≠ []) (ht : ∀ c ∈ tok, isTokenChar c = true)
    (hr : ∀ c t, rest = c :: t → isTokenChar c = false) :
    matchAt (stars ++ ws1 ++ atVersion ++ ws2 ++ tok ++ rest)
      = some (stars ++ ws1 ++ atVersion ++ ws2, tok, rest) := by
  have hTl : ∀ c t, ws1 ++ (atVersion ++ (ws2 ++ (tok ++ rest))) = c :: t →
      isStar c = false := by
    cases hws : ws1 with
    | nil =>
      rw [List.nil_append, atVersion_eq]
      exact headNot_append_cons (by decide)
    | cons w ws1' =>
      exact headNot_append_cons (sp_not_star (hw1 w (by rw [hws]; simp)))
  obtain ⟨e1, e2⟩ := scan_split isStar
    stars (ws1 ++ (atVersion ++ (ws2 ++ (tok ++ rest))))
    (stars ++ ws1 ++ atVersion ++ ws2 ++ tok ++ rest)
    (by simp [List.append_assoc]) hst hTl
  have hse : stars.isEmpty = false := by
    cases stars with
    | nil => exact absurd rfl hsn
    | cons a l => rfl
  have hmt := matchTail_build hw1 hw2n hw2 htn ht hr
  have hzs : ws1 ++ (atVersion ++ (ws2 ++ (tok ++ rest)))
      = ws1 ++ atVersion ++ ws2 ++ tok ++ rest := by
    simp [List.append_assoc]
  rw [hzs] at e2
  simp only [matchAt, e1, e2, hse, Bool.false_eq_true, if_false, hmt]
  simp [List.append_assoc]

end Updater

namespace Updater

/-! ### Unfolding the global scan -/

theorem tokenizeF_nil : ∀ f, tokenizeF f [] = []
  | 0 => rfl
  | _ + 1 => rfl

theorem tokenizeF_congr : ∀ (f g : Nat) (s : List Char),
    s.length ≤ f → s.length ≤ g → tokenizeF f s = tokenizeF g s
  | f, g, [], _, _ => by rw [tokenizeF_nil, tokenizeF_nil]
  | 0, _, c :: cs, hf, _ => by simp at hf
  | _ + 1, 0, c :: cs, _, hg => by simp at hg
  | f + 1, g + 1, c :: cs, hf, hg => by
    cases hm : matchAt (c :: cs) with
    | some val =>
      obtain ⟨g1, tok, rest⟩ := val
      have hr := matchAt_rest_lt hm
      simp only [List.length_cons] at hf hg hr
      simp only [tokenizeF, hm]
      rw [tokenizeF_congr f g rest (by omega) (by omega)]
    | none =>
      simp only [List.length_cons] at hf hg
      simp only [tokenizeF, hm]
      rw [tokenizeF_congr f g cs (by omega) (by omega)]

theorem tokenize_nil : tokenize [] = [] := rfl

theorem tokenize_cons_some {c : Char} {cs g1 tok rest : List Char}
    (h : matchAt (c :: cs) = some (g1, tok, rest)) :
    tokenize (c :: cs) = Seg.tag g1 tok :: tokenize rest := by
  have hr := matchAt_rest_lt h
  simp only [List.length_cons] at hr
  show tokenizeF (c :: cs).length (c :: cs) = _
  simp only [List.length_cons, tokenizeF, h]
  rw [tokenizeF_congr cs.length rest.length rest (by omega) le_rfl]
  rfl

theorem tokenize_cons_none {c : Char} {cs : List Char}
    (h : matchAt (c :: cs) = none) :
    tokenize (c :: cs) = Seg.lit c :: tokenize cs := by
  show tokenizeF (c :: cs).length (c :: cs) = _
  simp only [List.length_cons, tokenizeF, h]
  rfl

/-! ### `subn` computes the segment-wise replacement -/

theorem subnF_spec (nv : List Char) : ∀ (f : Nat) (s : List Char),
    subnF nv f s = (render nv (tokenizeF f s), countTags (tokenizeF f s))
  | f, [] => by rw [tokenizeF_nil]; cases f <;> simp [subnF, render, countTags]
  | 0, c :: cs => by simp [subnF, tokenizeF, render, countTags]
  | f + 1, c :: cs => by
    cases hm : matchAt (c :: cs) with
    | some val =>
      obtain ⟨g1, tok, rest⟩ := val
      simp only [subnF, tokenizeF, hm]
      rw [subnF_spec nv f rest]
      simp [render, renderSeg, countTags, List.append_assoc]
    | none =>
      simp only [subnF, tokenizeF, hm]
      rw [subnF_spec nv f cs]
      simp [render, renderSeg, countTags]

/-- The one-pass replacement of `subn` equals the segment-wise view: every
match becomes its own group 1 followed by the new version, every other
character is copied, and the count is the number of matches. -/
theorem subn_spec (nv s : List Char) :
    subn nv s = (render nv (tokenize s), countTags (tokenize s)) :=
  subnF_spec nv s.length s

/-- Shorthand for the text produced by one global replacement pass. -/
def rdr (nv s : List Char) : List Char := render nv (tokenize s)

theorem subn_eq_rdr (nv s : List Char) :
    subn nv s = (rdr nv s, countTags (tokenize s)) := subn_spec nv s

theorem rdr_nil (nv : List Char) : rdr nv [] = [] := rfl

theorem rdr_cons_none {nv : List Char} {c : Char} {cs : List Char}
    (h : matchAt (c :: cs) = none) :
    rdr nv (c :: cs) = c :: rdr nv cs := by
  simp only [rdr, tokenize_cons_none h, render, List.map_cons, List.flatten_cons, renderSeg]
  rfl

theorem rdr_some {nv s g1 tok rest : List Char}
    (h : matchAt s = some (g1, tok, rest)) :
    rdr nv s = g1 ++ (nv ++ rdr nv rest) := by
  obtain ⟨t, rfl⟩ := matchAt_cons_star h
  simp only [rdr, tokenize_cons_some h, render, List.map_cons, List.flatten_cons, renderSeg]
  simp [List.append_assoc]

theorem matchAt_none_of_head {c : Char} {t : List Char} (h : isStar c = false) :
    matchAt (c :: t) = none := by
  simp [matchAt, tw_neg _ h]

theorem rdr_head (nv : List Char) : ∀ s : List Char, (rdr nv s).head? = s.head?
  | [] => rfl
  | c :: cs => by
    cases hm : matchAt (c :: cs) with
    | some val =>
      obtain ⟨g1, tok, rest⟩ := val
      obtain ⟨t, hct⟩ := matchAt_cons_star hm
      rw [rdr_some hm]
      obtain ⟨stars, ws1, ws2, hg, _, hsn, hstar, _⟩ := matchAt_decomp hm
      cases hst : stars with
      | nil => exact absurd hst hsn
      | cons a stars' =>
        have ha : a = '*' := star_eq (hstar a (by rw [hst]; simp))
        injection hct with h1 _
        rw [hg, hst, ha]
        simp [h1]
    | none =>
      rw [rdr_cons_none hm]
      rfl

theorem rdr_append_noStar (nv : List Char) :
    ∀ (u v : List Char), (∀ c ∈ u, isStar c = false) →
      rdr nv (u ++ v) = u ++ rdr nv v
  | [], v, _ => by simp
  | d :: u', v, h => by
    have hm : matchAt (d :: (u' ++ v)) = none := matchAt_none_of_head (h d (by simp))
    rw [List.cons_append, rdr_cons_none hm,
      rdr_append_noStar nv u' v (fun c hc => h c (by simp [hc])), List.cons_append]

theorem matchAt_cons_star_some {s g1 tok rest : List Char}
    (h : matchAt s = some (g1, tok, rest)) :
    matchAt ('*' :: s) = some ('*' :: g1, tok, rest) := by
  obtain ⟨stars, ws1, ws2, hg, hs, hsn, hstar, hw1, hw2n, hw2, htn, ht, hr⟩ :=
    matchAt_decomp h
  have hshape : '*' :: s = ('*' :: stars) ++ ws1 ++ atVersion ++ ws2 ++ tok ++ rest := by
    rw [hs, hg]
    simp [List.append_assoc]
  have hstar' : ∀ c ∈ '*' :: stars, isStar c = true := by
    intro c hc
    rcases List.mem_cons.mp hc with h1 | h1
    · subst h1; decide
    · exact hstar c h1
  rw [hshape, matchAt_build (by simp) hstar' hw1 hw2n hw2 htn ht hr, hg]
  simp [List.append_assoc]

theorem matchAt_star_none {s : List Char} (h : matchAt ('*' :: s) = none) :
    matchAt s = none := by
  cases hm : matchAt s with
  | none => rfl
  | some val =>
    obtain ⟨g1, tok, rest⟩ := val
    rw [matchAt_cons_star_some hm] at h
    exact absurd h (by simp)

end Updater

namespace Updater

/-! ### Transfer of match failure across a replacement pass -/

theorem rdr_dropWhile_star (nv : List Char) :
    ∀ x : List Char, matchAt x = none →
      (rdr nv x).dropWhile isStar = rdr nv (x.dropWhile isStar)
  | [], _ => by simp [rdr_nil]
  | d :: xs, h => by
    by_cases hd : isStar d = true
    · have hd' : d = '*' := star_eq hd
      subst hd'
      have hxs : matchAt xs = none := matchAt_star_none h
      rw [rdr_cons_none h, dw_pos _ (by decide), dw_pos _ (by decide),
        rdr_dropWhile_star nv xs hxs]
    · have hd' : isStar d = false := by simpa using hd
      rw [rdr_cons_none h, dw_neg _ hd', dw_neg _ hd', rdr_cons_none h]

theorem matchTail_cons_space_none {c : Char} {x : List Char} (hc : isPySpace c = true) :
    matchTail (c :: x) = none ↔ matchTail x = none := by
  simp only [matchTail, tw_pos _ hc, dw_pos _ hc]
  split
  · split
    · simp
    · split
      · simp
      · simp
  · simp

theorem isPrefixOf_rdr (nv : List Char) :
    ∀ (u s : List Char), (∀ c ∈ u, isStar c = false) →
      u.isPrefixOf (rdr nv s) = u.isPrefixOf s
  | [], s, _ => by simp [List.isPrefixOf]
  | a :: u', [], _ => by simp [rdr_nil]
  | a :: u', c :: cs, h => by
    cases hm : matchAt (c :: cs) with
    | some val =>
      obtain ⟨g1, tok, rest⟩ := val
      obtain ⟨t, hct⟩ := matchAt_cons_star hm
      have hc : c = '*' := by injection hct
      have ha : isStar a = false := h a (by simp)
      have ha' : (a == '*') = false := by
        rcases Bool.eq_false_iff.mp ha with _
        simp only [beq_eq_false_iff_ne]
        intro he
        subst he
        exact absurd ha (by decide)
      rw [rdr_some hm]
      obtain ⟨stars, ws1, ws2, hg, _, hsn, hstar, _⟩ := matchAt_decomp hm
      cases hst : stars with
      | nil => exact absurd hst hsn
      | cons b stars' =>
        have hb : b = '*' := star_eq (hstar b (by rw [hst]; simp))
        rw [hg, hst, hb, hc]
        simp only [List.cons_append, List.append_assoc]
        rw [isPrefixOf_cons_cons, isPrefixOf_cons_cons, ha']
        simp
    | none =>
      rw [rdr_cons_none hm, isPrefixOf_cons_cons, isPrefixOf_cons_cons,
        isPrefixOf_rdr nv u' cs (fun x hx => h x (by simp [hx]))]

theorem tw_isEmpty_iff {p : Char → Bool} {l : List Char} :
    (l.takeWhile p).isEmpty = true ↔ ∀ c t, l = c :: t → p c = false := by
  cases l with
  | nil => simp
  | cons c t =>
    by_cases hc : p c = true
    · rw [tw_pos _ hc]
      simp only [List.isEmpty_cons, Bool.false_eq_true, false_iff]
      intro hall
      have := hall c t rfl
      rw [hc] at this
      exact Bool.true_eq_false ▸ this.symm ▸ (by simp at this)
    · have hc' : p c = false := by simpa using hc
      rw [tw_neg _ hc']
      simp only [List.isEmpty_nil, true_iff]
      intro c' t' he
      injection he with h1 _
      exact h1 ▸ hc'

theorem head?_cons_of_eq {l : List Char} {c : Char}
    (h : l.head? = some c) : ∃ t, l = c :: t := by
  cases l with
  | nil => simp at h
  | cons d t =>
    simp only [List.head?_cons, Option.some_inj] at h
    exact ⟨t, by rw [h]⟩

theorem matchTail_av (X : List Char) :
    matchTail (atVersion ++ X) =
      (if (X.takeWhile isPySpace).isEmpty then none
       else if ((X.dropWhile isPySpace).takeWhile isTokenChar).isEmpty then none
       else some (atVersion ++ X.takeWhile isPySpace,
                  (X.dropWhile isPySpace).takeWhile isTokenChar,
                  (X.dropWhile isPySpace).dropWhile isTokenChar)) := by
  have h1 : (atVersion ++ X).takeWhile isPySpace = [] := by
    rw [atVersion_eq, List.cons_append, tw_neg _ (by decide)]
  have h2 : (atVersion ++ X).dropWhile isPySpace = atVersion ++ X := by
    conv_lhs => rw [atVersion_eq, List.cons_append, dw_neg _ (by decide)]
    rw [← List.cons_append, ← atVersion_eq]
  have h3 : atVersion.isPrefixOf (atVersion ++ X) = true := isPrefixOf_append_self _ _
  simp only [matchTail, h1, h2, h3, if_true, List.drop_left, List.nil_append]

theorem matchTail_av_none (nv X : List Char)
    (h : matchTail (atVersion ++ X) = none) :
    matchTail (atVersion ++ rdr nv X) = none := by
  rw [matchTail_av] at h
  rw [matchTail_av]
  by_cases h1 : (X.takeWhile isPySpace).isEmpty = true
  · have hhd : ∀ c t, X = c :: t → isPySpace c = false := tw_isEmpty_iff.mp h1
    have hhd' : ∀ c t, rdr nv X = c :: t → isPySpace c = false := by
      intro c t he
      have hh := rdr_head nv X
      rw [he, List.head?_cons] at hh
      obtain ⟨t', ht'⟩ := head?_cons_of_eq hh.symm
      exact hhd c t' ht'
    rw [tw_isEmpty_iff.mpr hhd']
    simp
  · rw [if_neg (by simpa using h1)] at h
    split at h
    case neg.isFalse => exact absurd h (by simp)
    case neg.isTrue h2 =>
      have hws : X = X.takeWhile isPySpace ++ X.dropWhile isPySpace :=
        (List.takeWhile_append_dropWhile isPySpace X).symm
      have hwsall : ∀ c ∈ X.takeWhile isPySpace, isPySpace c = true :=
        fun c hc => List.mem_takeWhile_imp hc
      have hYhd : ∀ c t, X.dropWhile isPySpace = c :: t → isPySpace c = false :=
        fun c t he => dw_head_false he
      have hYhd' : ∀ c t, rdr nv (X.dropWhile isPySpace) = c :: t → isPySpace c = false := by
        intro c t he
        have hh := rdr_head nv (X.dropWhile isPySpace)
        rw [he, List.head?_cons] at hh
        obtain ⟨t', ht'⟩ := head?_cons_of_eq hh.symm
        exact hYhd c t' ht'
      have hrX : rdr nv X = X.takeWhile isPySpace ++ rdr nv (X.dropWhile isPySpace) := by
        conv_lhs => rw [hws]
        exact rdr_append_noStar nv _ _ (fun c hc => sp_not_star (hwsall c hc))
      obtain ⟨e1, e2⟩ := scan_split isPySpace
        (X.takeWhile isPySpace) (rdr nv (X.dropWhile isPySpace))
        (rdr nv X) hrX hwsall hYhd'
      rw [e1, e2]
      have htokhd : ∀ c t, X.dropWhile isPySpace = c :: t → isTokenChar c = false :=
        tw_isEmpty_iff.mp h2
      have htokhd' : ∀ c t, rdr nv (X.dropWhile isPySpace) = c :: t →
          isTokenChar c = false := by
        intro c t he
        have hh := rdr_head nv (X.dropWhile isPySpace)
        rw [he, List.head?_cons] at hh
        obtain ⟨t', ht'⟩ := head?_cons_of_eq hh.symm
        exact htokhd c t' ht'
      rw [tw_isEmpty_iff.mpr htokhd']
      have hne : X.takeWhile isPySpace ≠ [] := by
        intro he
        rw [he] at h1
        exact h1 rfl
      cases hXw : X.takeWhile isPySpace with
      | nil => exact absurd hXw hne
      | cons a l => simp

end Updater

namespace Updater

theorem matchAt_cons_star_eq (s : List Char) :
    (matchAt ('*' :: s) = none) ↔ (matchTail (s.dropWhile isStar) = none) := by
  simp only [matchAt, tw_pos _ (show isStar '*' = true by decide),
    dw_pos _ (show isStar '*' = true by decide), List.isEmpty_cons,
    Bool.false_eq_true, if_false]
  cases hmt : matchTail (s.dropWhile isStar) with
  | none => simp
  | some val =>
    obtain ⟨a, b, c⟩ := val
    simp

theorem matchTail_rdr_none (nv : List Char) :
    ∀ s : List Char, matchTail s = none → matchTail (rdr nv s) = none
  | [], _ => by rw [rdr_nil]; decide
  | c :: cs, h => by
    by_cases hc : isPySpace c = true
    · have hm : matchAt (c :: cs) = none := matchAt_none_of_head (sp_not_star hc)
      rw [rdr_cons_none hm]
      exact (matchTail_cons_space_none hc).mpr
        (matchTail_rdr_none nv cs ((matchTail_cons_space_none hc).mp h))
    · have hc' : isPySpace c = false := by simpa using hc
      cases hm : matchAt (c :: cs) with
      | some val =>
        obtain ⟨g1, tok, rest⟩ := val
        rw [rdr_some hm]
        obtain ⟨stars, ws1, ws2, hg, _, hsn, hstar, _⟩ := matchAt_decomp hm
        cases hst : stars with
        | nil => exact absurd hst hsn
        | cons b stars' =>
          have hb : b = '*' := star_eq (hstar b (by rw [hst]; simp))
          rw [hg, hst, hb]
          simp only [List.cons_append, List.append_assoc]
          simp only [matchTail, dw_neg _ (show isPySpace '*' = false by decide)]
          rw [atVersion_eq, isPrefixOf_cons_cons]
          simp
      | none =>
        by_cases hp : atVersion.isPrefixOf (c :: cs) = true
        · have hd := eq_append_drop_of_isPrefixOf _ _ hp
          rw [hd] at h ⊢
          rw [rdr_append_noStar nv _ _ atVersion_no_star]
          exact matchTail_av_none nv _ h
        · have hp' : atVersion.isPrefixOf (c :: cs) = false := Bool.eq_false_iff.mpr hp
          have hpr : atVersion.isPrefixOf (rdr nv (c :: cs)) = false := by
            rw [isPrefixOf_rdr nv _ _ atVersion_no_star, hp']
          rw [rdr_cons_none hm] at hpr ⊢
          simp only [matchTail, dw_neg _ hc', hpr, Bool.false_eq_true, if_false]

theorem matchAt_rdr_none (nv : List Char) {s : List Char}
    (h : matchAt s = none) : matchAt (rdr nv s) = none := by
  cases s with
  | nil => rw [rdr_nil]; rfl
  | cons c cs =>
    by_cases hc : isStar c = true
    · have hc' : c = '*' := star_eq hc
      subst hc'
      have hcs : matchAt cs = none := matchAt_star_none h
      rw [rdr_cons_none h]
      have hts : matchTail (cs.dropWhile isStar) = none := (matchAt_cons_star_eq cs).mp h
      have htr : matchTail (rdr nv (cs.dropWhile isStar)) = none :=
        matchTail_rdr_none nv _ hts
      rw [← rdr_dropWhile_star nv cs hcs] at htr
      exact (matchAt_cons_star_eq (rdr nv cs)).mpr htr
    · have hc' : isStar c = false := by simpa using hc
      rw [rdr_cons_none h]
      exact matchAt_none_of_head hc'

/-- A second global pass over the output of a first pass finds exactly the
rewritten tags again (same group 1, token now `nv`), provided the new
version is a nonempty string of token characters. -/
theorem tokenize_rdr (nv : List Char) (hnv : nv ≠ [])
    (htok : ∀ c ∈ nv, isTokenChar c = true) :
    ∀ s : List Char, tokenize (rdr nv s) = retag nv (tokenize s) := by
  have key : ∀ n : Nat, ∀ s : List Char, s.length ≤ n →
      tokenize (rdr nv s) = retag nv (tokenize s) := by
    intro n
    induction n with
    | zero =>
      intro s hs
      have hnil : s = [] := List.length_eq_zero.mp (Nat.le_zero.mp hs)
      subst hnil
      simp [rdr_nil, tokenize_nil, retag]
    | succ n ih =>
      intro s hs
      cases s with
      | nil => simp [rdr_nil, tokenize_nil, retag]
      | cons c cs =>
        cases hm : matchAt (c :: cs) with
        | some val =>
          obtain ⟨g1, tok, rest⟩ := val
          rw [rdr_some hm, tokenize_cons_some hm]
          obtain ⟨stars, ws1, ws2, hg, hsplit, hsn, hstar, hw1, hw2n, hw2, htn, ht, hr⟩ :=
            matchAt_decomp hm
          have hrest' : ∀ c' t', rdr nv rest = c' :: t' → isTokenChar c' = false := by
            intro c' t' he
            have hh := rdr_head nv rest
            rw [he, List.head?_cons] at hh
            obtain ⟨t2, ht2⟩ := head?_cons_of_eq hh.symm
            exact hr c' t2 ht2
          have hb : matchAt (stars ++ ws1 ++ atVersion ++ ws2 ++ nv ++ rdr nv rest)
              = some (stars ++ ws1 ++ atVersion ++ ws2, nv, rdr nv rest) :=
            matchAt_build hsn hstar hw1 hw2n hw2 hnv htok hrest'
          have hshape : g1 ++ (nv ++ rdr nv rest)
              = stars ++ ws1 ++ atVersion ++ ws2 ++ nv ++ rdr nv rest := by
            rw [hg]
            simp [List.append_assoc]
          rw [hshape]
          obtain ⟨t2, hct⟩ := matchAt_cons_star hb
          rw [hct] at hb ⊢
          rw [tokenize_cons_some hb]
          have hlt := matchAt_rest_lt hm
          simp only [List.length_cons] at hs hlt
          rw [ih rest (by omega)]
          simp [retag, hg, List.append_assoc]
        | none =>
          rw [rdr_cons_none hm, tokenize_cons_none hm]
          have hrdr : matchAt (c :: rdr nv cs) = none := by
            rw [← rdr_cons_none hm]
            exact matchAt_rdr_none nv hm
          rw [tokenize_cons_none hrdr]
          simp only [List.length_cons] at hs
          rw [ih cs (by omega)]
          simp [retag]
  intro s
  exact key s.length s le_rfl

theorem render_cons (nv : List Char) (x : Seg) (t : List Seg) :
    render nv (x :: t) = renderSeg nv x ++ render nv t := by
  simp [render]

theorem render_retag (nv : List Char) : ∀ segs, render nv (retag nv segs) = render nv segs
  | [] => rfl
  | Seg.lit c :: t => by
    rw [show retag nv (Seg.lit c :: t) = Seg.lit c :: retag nv t from rfl,
      render_cons, render_cons, render_retag nv t]
  | Seg.tag g1 g2 :: t => by
    rw [show retag nv (Seg.tag g1 g2 :: t) = Seg.tag g1 nv :: retag nv t from rfl,
      render_cons, render_cons, render_retag nv t]
    rfl

theorem countTags_retag (nv : List Char) : ∀ segs, countTags (retag nv segs) = countTags segs
  | [] => rfl
  | Seg.lit c :: t => by simp [retag, countTags, countTags_retag nv t]
  | Seg.tag g1 g2 :: t => by simp [retag, countTags, countTags_retag nv t]

/-- Running the substitution a second time over its own output rewrites the
text identically (every tag matches again, with the same count). -/
theorem subn_idem (nv s : List Char) (hnv : nv ≠ [])
    (htok : ∀ c ∈ nv, isTokenChar c = true) :
    subn nv (subn nv s).1 = ((subn nv s).1, (subn nv s).2) := by
  rw [subn_eq_rdr nv s]
  show subn nv (rdr nv s) = (rdr nv s, countTags (tokenize s))
  rw [subn_eq_rdr nv (rdr nv s)]
  show (rdr nv (rdr nv s), countTags (tokenize (rdr nv s)))
    = (rdr nv s, countTags (tokenize s))
  rw [show rdr nv (rdr nv s) = render nv (tokenize (rdr nv s)) from rfl]
  rw [tokenize_rdr nv hnv htok s, render_retag, countTags_retag]
  rfl

end Updater

namespace Updater

/-! ### Behaviour of the per-entry loop body -/

theorem pe_not_ext {nv : List Char} {e : Entry} (h : suffixOf e.path ∉ file_exts) :
    processEntry nv e = some ⟨e, [], false, false⟩ := by
  simp only [processEntry, if_neg h]

theorem pe_dir {nv p : List Char} (h : suffixOf p ∈ file_exts) :
    processEntry nv ⟨p, FileData.dir⟩
      = some ⟨⟨p, FileData.dir⟩, [skipMsg p], true, false⟩ := by
  simp only [processEntry, if_pos h]

theorem pe_unreadable {nv p : List Char} {w : Bool} (h : suffixOf p ∈ file_exts) :
    processEntry nv ⟨p, FileData.unreadable w⟩
      = some ⟨⟨p, FileData.unreadable w⟩, [skipMsg p], true, false⟩ := by
  simp only [processEntry, if_pos h]

theorem pe_text_zero {nv p t : List Char} {w : Bool}
    (h : suffixOf p ∈ file_exts) (h0 : (subn nv t).2 = 0) :
    processEntry nv ⟨p, FileData.text w t⟩
      = some ⟨⟨p, FileData.text w t⟩, [], true, false⟩ := by
  simp only [processEntry, if_pos h]
  rw [if_neg (by omega)]

theorem pe_text_pos {nv p t : List Char}
    (h : suffixOf p ∈ file_exts) (hn : 0 < (subn nv t).2) :
    processEntry nv ⟨p, FileData.text true t⟩
      = some ⟨⟨p, FileData.text true (subn nv t).1⟩, [updatedMsg p], true, true⟩ := by
  simp only [processEntry, if_pos h]
  rw [if_pos hn]
  simp

theorem pe_text_crash {nv p t : List Char}
    (h : suffixOf p ∈ file_exts) (hn : 0 < (subn nv t).2) :
    processEntry nv ⟨p, FileData.text false t⟩ = none := by
  simp only [processEntry, if_pos h]
  rw [if_pos hn]
  simp

/-- Processing an already-processed entry again produces the same result:
the stable entry, the same output lines, the same read and write flags. -/
theorem processEntry_idem {nv : List Char} (hnv : nv ≠ [])
    (htok : ∀ c ∈ nv, isTokenChar c = true) :
    ∀ {e : Entry} {r : ProcResult},
      processEntry nv e = some r → processEntry nv r.entry = some r := by
  intro e r h
  obtain ⟨p, d⟩ := e
  by_cases hs : suffixOf p ∈ file_exts
  · cases d with
    | dir =>
      rw [pe_dir hs] at h
      injection h with h'
      subst h'
      exact pe_dir hs
    | unreadable w =>
      rw [pe_unreadable hs] at h
      injection h with h'
      subst h'
      exact pe_unreadable hs
    | text w t =>
      by_cases hn : 0 < (subn nv t).2
      · cases w with
        | false =>
          rw [pe_text_crash hs hn] at h
          exact absurd h (by simp)
        | true =>
          rw [pe_text_pos hs hn] at h
          injection h with h'
          subst h'
          have hi := subn_idem nv t hnv htok
          have hn' : 0 < (subn nv (subn nv t).1).2 := by rw [hi]; exact hn
          have hres := @pe_text_pos nv p ((subn nv t).1) hs hn'
          rw [show (subn nv (subn nv t).1).1 = (subn nv t).1 by rw [hi]] at hres
          exact hres
      · have h0 : (subn nv t).2 = 0 := by omega
        rw [pe_text_zero hs h0] at h
        injection h with h'
        subst h'
        exact pe_text_zero hs h0
  · rw [pe_not_ext hs] at h
    injection h with h'
    subst h'
    exact pe_not_ext hs

/-! ### Behaviour of the walk -/

theorem runFiles_cons_some {nv : List Char} {e : Entry} {es : List Entry} {r : ProcResult}
    (h : processEntry nv e = some r) :
    runFiles nv (e :: es) = (r.entry :: (runFiles nv es).1,
      r.out ++ (runFiles nv es).2.1, (runFiles nv es).2.2) := by
  simp only [runFiles, h]

theorem runFiles_cons_none {nv : List Char} {e : Entry} {es : List Entry}
    (h : processEntry nv e = none) :
    runFiles nv (e :: es) = (e :: es, [], 1) := by
  simp only [runFiles, h]

theorem runFiles_idem {nv : List Char} (hnv : nv ≠ [])
    (htok : ∀ c ∈ nv, isTokenChar c = true) :
    ∀ fs : List Entry, runFiles nv (runFiles nv fs).1 = runFiles nv fs
  | [] => rfl
  | e :: es => by
    cases hp : processEntry nv e with
    | none =>
      rw [runFiles_cons_none hp]
      exact runFiles_cons_none hp
    | some r =>
      rw [runFiles_cons_some hp]
      show runFiles nv (r.entry :: (runFiles nv es).1) = _
      rw [runFiles_cons_some (processEntry_idem hnv htok hp),
        runFiles_idem hnv htok es]

theorem runFiles_exit_zero {nv : List Char} :
    ∀ fs : List Entry, (∀ e ∈ fs, processEntry nv e ≠ none) →
      (runFiles nv fs).2.2 = 0
  | [], _ => rfl
  | e :: es, h => by
    cases hp : processEntry nv e with
    | none => exact absurd hp (h e (by simp))
    | some r =>
      rw [runFiles_cons_some hp]
      exact runFiles_exit_zero es (fun x hx => h x (by simp [hx]))

/-! ### Behaviour of the entry point -/

theorem updater_pair (p v : List Char) (fs : List Entry) :
    updater [p, v] fs = runFiles v fs := rfl

theorem updater_usage {argv : List (List Char)} (fs : List Entry)
    (h : argv.length ≠ 2) : updater argv fs = (fs, [usageMsg], 1) := by
  match argv with
  | [] => rfl
  | [a] => rfl
  | [a, b] => exact absurd rfl h
  | a :: b :: c :: t => rfl

theorem updater_idem {p v : List Char} (hnv : v ≠ [])
    (htok : ∀ c ∈ v, isTokenChar c = true) (fs : List Entry) :
    updater [p, v] (updater [p, v] fs).1 = updater [p, v] fs := by
  rw [updater_pair, updater_pair]
  exact runFiles_idem hnv htok fs

end Updater

namespace Updater

/-! ### Claims -/

/-- C1: for every input text and new version string, each match of the
version-tag pattern is replaced by its own captured group 1 verbatim
concatenated with the new version string (the segment-wise view: literal
characters are copied unchanged, every match contributes `group 1 ++ nv`);
in particular, `/** @version 1.2.3 */` with new version `2.0.0` becomes
exactly `/** @version 2.0.0 */`. -/
theorem c1_each_match_replaced :
    (∀ nv text : List Char,
        subn nv text = (render nv (tokenize text), countTags (tokenize text)))
    ∧ subn "2.0.0".toList "/** @version 1.2.3 */".toList
        = ("/** @version 2.0.0 */".toList, 1) :=
  ⟨subn_spec, by decide⟩

/-- C2, counterexample: after a first run on a tree holding `a.py` with tag
`* @version 1.0`, a second run with the same version argument `2.0.0` again
matches the tag, rewrites the file and prints an `Updated` line — the
second run performs one write and one match, not zero. -/
theorem c2_counterexample :
    (updater ["update_version.py".toList, "2.0.0".toList]
        (updater ["update_version.py".toList, "2.0.0".toList]
          [⟨"a.py".toList, FileData.text true "* @version 1.0\n".toList⟩]).1).2.1
      = [updatedMsg "a.py".toList]
    ∧ [updatedMsg "a.py".toList] ≠ ([] : List (List Char)) :=
  ⟨by decide, by decide⟩

/-- C2, amended: when the version argument is a nonempty string of token
characters (word characters, dots, hyphens), a second run with the same
argument is observationally identical to the first run: same final file
contents, same output lines, same exit code.  (The second run does match
and rewrite every previously updated file; the rewritten bytes are equal.) -/
theorem c2_amended_idempotent (p v : List Char) (fs : List Entry)
    (h1 : v ≠ []) (h2 : ∀ c ∈ v, isTokenChar c = true) :
    updater [p, v] (updater [p, v] fs).1 = updater [p, v] fs :=
  updater_idem h1 h2 fs

/-- C2, witness for the amended theorem at a concrete tree and version. -/
theorem c2_amended_idempotent_witness :
    ("2.0.0".toList ≠ [] ∧ ∀ c ∈ "2.0.0".toList, isTokenChar c = true)
    ∧ updater ["u".toList, "2.0.0".toList]
        (updater ["u".toList, "2.0.0".toList]
          [⟨"a.py".toList, FileData.text true "* @version 1.0\n".toList⟩]).1
      = updater ["u".toList, "2.0.0".toList]
          [⟨"a.py".toList, FileData.text true "* @version 1.0\n".toList⟩] :=
  ⟨⟨by decide, by decide⟩,
    c2_amended_idempotent "u".toList "2.0.0".toList
      [⟨"a.py".toList, FileData.text true "* @version 1.0\n".toList⟩]
      (by decide) (by decide)⟩

/-- C3: whenever the argument count is not exactly one (that is,
`len(sys.argv) != 2`), the program prints the usage line to standard
output, exits with status 1, and the filesystem is untouched. -/
theorem c3_usage_exit (argv : List (List Char)) (fs : List Entry)
    (h : argv.length ≠ 2) :
    updater argv fs = (fs, [usageMsg], 1) :=
  updater_usage fs h

/-- C3, witness: the empty argument vector on a one-file tree. -/
theorem c3_usage_exit_witness :
    ([] : List (List Char)).length ≠ 2
    ∧ updater [] [⟨"a.py".toList, FileData.text true "* @version 1.0\n".toList⟩]
      = ([⟨"a.py".toList, FileData.text true "* @version 1.0\n".toList⟩],
         [usageMsg], 1) :=
  ⟨by decide,
   c3_usage_exit [] [⟨"a.py".toList, FileData.text true "* @version 1.0\n".toList⟩]
     (by decide)⟩

/-- C4: an eligible text file whose substitution count is 0 is left
unchanged (no write) and produces no output line. -/
theorem c4_no_match_no_write (nv p t : List Char) (w : Bool)
    (hs : suffixOf p ∈ file_exts) (h0 : (subn nv t).2 = 0) :
    processEntry nv ⟨p, FileData.text w t⟩
      = some ⟨⟨p, FileData.text w t⟩, [], true, false⟩ :=
  pe_text_zero hs h0

/-- C4, witness: a `.py` file with no version tag anywhere. -/
theorem c4_no_match_no_write_witness :
    suffixOf "a.py".toList ∈ file_exts
    ∧ (subn "2.0.0".toList "print(1)\n".toList).2 = 0
    ∧ processEntry "2.0.0".toList ⟨"a.py".toList, FileData.text true "print(1)\n".toList⟩
        = some ⟨⟨"a.py".toList, FileData.text true "print(1)\n".toList⟩, [], true, false⟩ :=
  ⟨by decide, by decide,
   c4_no_match_no_write "2.0.0".toList "a.py".toList "print(1)\n".toList true
     (by decide) (by decide)⟩

/-- C5: an entry whose suffix is not in the allow-list is never read,
never modified, and produces no output line, whatever its contents. -/
theorem c5_extension_filter (nv : List Char) (e : Entry)
    (h : suffixOf e.path ∉ file_exts) :
    processEntry nv e = some ⟨e, [], false, false⟩ :=
  pe_not_ext h

/-- C5, witness: `notes.txt` containing a valid version tag is untouched. -/
theorem c5_extension_filter_witness :
    suffixOf "notes.txt".toList ∉ file_exts
    ∧ processEntry "9.9.9".toList
        ⟨"notes.txt".toList, FileData.text true "* @version 1.0\n".toList⟩
      = some ⟨⟨"notes.txt".toList, FileData.text true "* @version 1.0\n".toList⟩,
          [], false, false⟩ :=
  ⟨by decide,
   c5_extension_filter "9.9.9".toList
     ⟨"notes.txt".toList, FileData.text true "* @version 1.0\n".toList⟩ (by decide)⟩

/-- C6: the substitution is global — the returned count is the number of
non-overlapping matches, and in a file with the two tags `* @version 1.0.0`
and `** @version 1.0.0-beta`, new version `3.1.4` rewrites both, each
keeping its own prefix, with count 2. -/
theorem c6_global_substitution :
    (∀ nv text : List Char, (subn nv text).2 = countTags (tokenize text))
    ∧ subn "3.1.4".toList "* @version 1.0.0\n** @version 1.0.0-beta\n".toList
        = ("* @version 3.1.4\n** @version 3.1.4\n".toList, 2) :=
  ⟨fun nv text => by rw [subn_spec], by decide⟩

/-- C7: a candidate file whose read fails produces exactly one
`Skipped (read error)` line and is not modified, and in the concrete
two-file scenario the run still updates the valid file and exits 0. -/
theorem c7_read_error_skip :
    (∀ (nv p : List Char) (w : Bool), suffixOf p ∈ file_exts →
        processEntry nv ⟨p, FileData.unreadable w⟩
          = some ⟨⟨p, FileData.unreadable w⟩, [skipMsg p], true, false⟩)
    ∧ updater ["u".toList, "2.0.0".toList]
        [⟨"bad.py".toList, FileData.unreadable true⟩,
         ⟨"good.py".toList, FileData.text true "* @version 1.0\n".toList⟩]
      = ([⟨"bad.py".toList, FileData.unreadable true⟩,
          ⟨"good.py".toList, FileData.text true "* @version 2.0.0\n".toList⟩],
         [skipMsg "bad.py".toList, updatedMsg "good.py".toList], 0) :=
  ⟨fun nv p w h => pe_unreadable h, by decide⟩

/-- C7, witness for the universally quantified part. -/
theorem c7_read_error_skip_witness :
    suffixOf "x.py".toList ∈ file_exts
    ∧ processEntry "2.0.0".toList ⟨"x.py".toList, FileData.unreadable true⟩
        = some ⟨⟨"x.py".toList, FileData.unreadable true⟩,
            [skipMsg "x.py".toList], true, false⟩ :=
  ⟨by decide, c7_read_error_skip.1 "2.0.0".toList "x.py".toList true (by decide)⟩

/-- C8, counterexample: a directory named `foo.py` is not skipped silently —
`read_text` on it raises `IsADirectoryError`, which the `except` clause
turns into a `Skipped (read error)` output line. -/
theorem c8_counterexample :
    updater ["u".toList, "1.0".toList] [⟨"foo.py".toList, FileData.dir⟩]
      = ([⟨"foo.py".toList, FileData.dir⟩], [skipMsg "foo.py".toList], 0)
    ∧ [skipMsg "foo.py".toList] ≠ ([] : List (List Char)) :=
  ⟨by decide, by decide⟩

/-- C8, amended: entries whose suffix is not in the allow-list (directories
without an allow-listed suffix, extensionless files, non-matching
extensions) are skipped silently with no read and no output; but a
directory whose name ends in an allow-listed suffix is read, fails, and
produces a `Skipped (read error)` line (it is still never modified). -/
theorem c8_amended_silent_skip (nv : List Char) (e : Entry) :
    (suffixOf e.path ∉ file_exts → processEntry nv e = some ⟨e, [], false, false⟩)
    ∧ (suffixOf e.path ∈ file_exts → e.data = FileData.dir →
        processEntry nv e = some ⟨e, [skipMsg e.path], true, false⟩) :=
  ⟨fun h => pe_not_ext h,
   fun hs hd => by
     obtain ⟨p, d⟩ := e
     cases hd
     exact pe_dir hs⟩

/-- C8, witness for both parts of the amended theorem. -/
theorem c8_amended_silent_skip_witness :
    (suffixOf "notes.txt".toList ∉ file_exts
     ∧ processEntry "1.0".toList
         ⟨"notes.txt".toList, FileData.text true "* @version 2.0\n".toList⟩
       = some ⟨⟨"notes.txt".toList, FileData.text true "* @version 2.0\n".toList⟩,
           [], false, false⟩)
    ∧ (suffixOf "foo.py".toList ∈ file_exts
     ∧ processEntry "1.0".toList ⟨"foo.py".toList, FileData.dir⟩
       = some ⟨⟨"foo.py".toList, FileData.dir⟩, [skipMsg "foo.py".toList], true, false⟩) :=
  ⟨⟨by decide,
    (c8_amended_silent_skip "1.0".toList
      ⟨"notes.txt".toList, FileData.text true "* @version 2.0\n".toList⟩).1 (by decide)⟩,
   ⟨by decide,
    (c8_amended_silent_skip "1.0".toList ⟨"foo.py".toList, FileData.dir⟩).2
      (by decide) rfl⟩⟩

/-- C9, counterexample: with correct arity, a failed write (`a.py` is
read-only and contains a match) aborts the run with exit status 1 — not 0 —
and the following eligible file `b.py` is left unprocessed. -/
theorem c9_counterexample :
    updater ["u".toList, "2.0.0".toList]
        [⟨"a.py".toList, FileData.text false "* @version 1.0\n".toList⟩,
         ⟨"b.py".toList, FileData.text true "* @version 1.0\n".toList⟩]
      = ([⟨"a.py".toList, FileData.text false "* @version 1.0\n".toList⟩,
          ⟨"b.py".toList, FileData.text true "* @version 1.0\n".toList⟩], [], 1)
    ∧ (1 : Nat) ≠ 0 :=
  ⟨by decide, by decide⟩

/-- C9, amended: write failures are not ignored — an unwritable matched
file makes the loop body raise, which stops the walk at that entry with
exit status 1 and no further output; the run exits 0 exactly when no
entry's body raises. -/
theorem c9_amended_write_failure (nv : List Char) (fs : List Entry) :
    ((∀ e ∈ fs, processEntry nv e ≠ none) → (runFiles nv fs).2.2 = 0)
    ∧ (∀ (e : Entry) (es : List Entry), processEntry nv e = none →
        runFiles nv (e :: es) = (e :: es, [], 1))
    ∧ (∀ (p t : List Char), suffixOf p ∈ file_exts → 0 < (subn nv t).2 →
        processEntry nv ⟨p, FileData.text false t⟩ = none) :=
  ⟨runFiles_exit_zero fs, fun e es h => runFiles_cons_none h,
   fun p t hs hn => pe_text_crash hs hn⟩

/-- C9, witness for the amended theorem's three parts. -/
theorem c9_amended_write_failure_witness :
    (runFiles "2.0.0".toList
        [⟨"a.py".toList, FileData.text true "* @version 1.0\n".toList⟩]).2.2 = 0
    ∧ runFiles "2.0.0".toList
        [⟨"a.py".toList, FileData.text false "* @version 1.0\n".toList⟩]
      = ([⟨"a.py".toList, FileData.text false "* @version 1.0\n".toList⟩], [], 1)
    ∧ processEntry "2.0.0".toList
        ⟨"a.py".toList, FileData.text false "* @version 1.0\n".toList⟩ = none :=
  ⟨(c9_amended_write_failure "2.0.0".toList
      [⟨"a.py".toList, FileData.text true "* @version 1.0\n".toList⟩]).1 (by decide),
   (c9_amended_write_failure "2.0.0".toList []).2.1
     ⟨"a.py".toList, FileData.text false "* @version 1.0\n".toList⟩ [] (by decide),
   (c9_amended_write_failure "2.0.0".toList []).2.2
     "a.py".toList "* @version 1.0\n".toList (by decide) (by decide)⟩

/-- C10: with at least one match, a writable eligible file is rewritten
(a write occurs) and an `Updated` line is printed — conditioned only on the
match count, even when the substituted text is byte-identical to the
original. -/
theorem c10_write_on_any_match (nv p t : List Char)
    (hs : suffixOf p ∈ file_exts) (hn : 0 < (subn nv t).2) :
    processEntry nv ⟨p, FileData.text true t⟩
      = some ⟨⟨p, FileData.text true (subn nv t).1⟩, [updatedMsg p], true, true⟩ :=
  pe_text_pos hs hn

/-- C10, witness: the new version `2.0` equals the token already present,
so the substituted text is byte-identical, yet the entry is written
(`didWrite = true`) and the `Updated` line is printed. -/
theorem c10_write_on_any_match_witness :
    suffixOf "a.py".toList ∈ file_exts
    ∧ 0 < (subn "2.0".toList "* @version 2.0\n".toList).2
    ∧ (subn "2.0".toList "* @version 2.0\n".toList).1 = "* @version 2.0\n".toList
    ∧ processEntry "2.0".toList
        ⟨"a.py".toList, FileData.text true "* @version 2.0\n".toList⟩
      = some ⟨⟨"a.py".toList,
            FileData.text true (subn "2.0".toList "* @version 2.0\n".toList).1⟩,
          [updatedMsg "a.py".toList], true, true⟩ :=
  ⟨by decide, by decide, by decide,
   c10_write_on_any_match "2.0".toList "a.py".toList "* @version 2.0\n".toList
     (by decide) (by decide)⟩

end Updater
